import Mathlib

/-!
Verification of the requirement-tree traversal engine of the easyreq
repository (src/src/main.rs, src/src/lib.rs) against its specification.

The Rust source is shallowly embedded: strings are Lean `String`s
manipulated through explicit `List Char` functions mirroring the exact
semantics of the Rust standard-library operations used by the source
(`str::contains`, `str::starts_with`, `str::trim`, `str::lines`,
`str::split_once`, `str::split`, `str::replace`), `IndexMap` becomes an
insertion-ordered association list, fallible file reads become an
explicit `read` function into `Except`, and the `Regex` patterns of the
checker become an abstract list of `String → Bool` matchers (the Rust
code only ever calls `Regex::is_match`).
-/

/-! ## List-of-characters string primitives -/

/-- Embeds `str::starts_with` / substring-prefix testing on character
lists: `listPrefixOf p l` is true iff `p` is a prefix of `l`. -/
def listPrefixOf : List Char → List Char → Bool
  | [], _ => true
  | _ :: _, [] => false
  | a :: as, b :: bs => a == b && listPrefixOf as bs

/-- Embeds `str::contains` on character lists: `listInfixOf q l` is true
iff `q` occurs contiguously inside `l`. -/
def listInfixOf : List Char → List Char → Bool
  | q, [] => q.isEmpty
  | q, c :: t => listPrefixOf q (c :: t) || listInfixOf q t

/-- `str::contains`: the haystack contains the pattern as a substring. -/
def strContains (hay pat : String) : Bool :=
  listInfixOf pat.data hay.data

/-- `str::starts_with` on `String`s. -/
def strStartsWith (s pre : String) : Bool :=
  listPrefixOf pre.data s.data

/-- Embeds `str::replace` (with a nonempty pattern, as in every use in the
source): scan left to right, replacing each non-overlapping occurrence of
`pat` by `rep`.  The `Nat` argument is structural-recursion fuel; each
step consumes at least one character, so fuel equal to the length of the
scanned list (as supplied by `strReplace`) is exact. -/
def replaceAllF : Nat → List Char → List Char → List Char → List Char
  | 0, _, _, s => s
  | _ + 1, _, _, [] => []
  | fuel + 1, pat, rep, c :: rest =>
    if pat ≠ [] ∧ listPrefixOf pat (c :: rest) = true then
      rep ++ replaceAllF fuel pat rep (rest.drop (pat.length - 1))
    else
      c :: replaceAllF fuel pat rep rest

/-- `str::replace` on `String`s (nonempty pattern). -/
def strReplace (s pat rep : String) : String :=
  String.mk (replaceAllF s.data.length pat.data rep.data s.data)

/-- Embeds `str::trim`: drop whitespace from both ends. -/
def strTrim (s : String) : String :=
  String.mk (((s.data.dropWhile Char.isWhitespace).reverse.dropWhile
    Char.isWhitespace).reverse)

/-- Splits a character list at the first occurrence of `sep`, returning
the parts before and after it; `none` when `sep` does not occur.  This is
`str::split_once` at the character level. -/
def splitAtChar : Char → List Char → Option (List Char × List Char)
  | _, [] => none
  | sep, c :: t =>
    if c = sep then some ([], t)
    else
      match splitAtChar sep t with
      | none => none
      | some (a, b) => some (c :: a, b)

/-- `str::split_once` with a single-character separator (the source only
splits on the characters `:` and `-`). -/
def split_once (s : String) (sep : Char) : Option (String × String) :=
  match splitAtChar sep s.data with
  | none => none
  | some (a, b) => some (String.mk a, String.mk b)

/-- `str::split` with a single-character separator (the source only
splits versions on `.`): every maximal separator-free run, including
empty runs between adjacent separators and at the ends. -/
def splitOnChar (sep : Char) : List Char → List (List Char)
  | [] => [[]]
  | c :: t =>
    if c = sep then [] :: splitOnChar sep t
    else
      match splitOnChar sep t with
      | [] => [[c]]
      | x :: xs => (c :: x) :: xs

/-- Strip one trailing carriage return, as `str::lines` does per line. -/
def stripCR (l : List Char) : List Char :=
  if l.getLast? = some '\r' then l.dropLast else l

/-- Embeds `str::lines`: split on `'\n'`, drop the empty fragment a
trailing newline would produce, strip one trailing `'\r'` per line. -/
def rustLines (s : String) : List String :=
  let parts := splitOnChar '\n' s.data
  let parts := if parts.getLast? = some [] then parts.dropLast else parts
  parts.map (fun l => String.mk (stripCR l))

/-! ## Insertion-ordered association map (the `IndexMap` operations the
checker uses) -/

/-- `IndexMap::get`: value of the first (unique) entry with the key. -/
def imLookup {α : Type} : List (String × α) → String → Option α
  | [], _ => none
  | (k, v) :: rest, key => if k = key then some v else imLookup rest key

/-- `IndexMap::insert`: replace the value in place if the key is present,
otherwise append the new entry at the end. -/
def imInsert {α : Type} : List (String × α) → String → α → List (String × α)
  | [], key, v => [(key, v)]
  | (k, v0) :: rest, key, v =>
    if k = key then (key, v) :: rest else (k, v0) :: imInsert rest key v

/-- `IndexMap::entry(key).or_insert(v)`: keep the map unchanged when the
key is present, otherwise append the new entry at the end. -/
def imOrInsert {α : Type} : List (String × α) → String → α → List (String × α)
  | [], key, v => [(key, v)]
  | (k, v0) :: rest, key, v =>
    if k = key then (k, v0) :: rest else (k, v0) :: imOrInsert rest key v

/-! ## Data model (src/src/lib.rs) -/

/-- `Requirement` from lib.rs. -/
structure Requirement where
  name : String
  description : String
  additional_info : List String
deriving DecidableEq

/-- `Topic` from lib.rs: name, insertion-ordered requirement map,
insertion-ordered subtopic map. -/
inductive Topic where
  | mk : String → List (String × Requirement) → List (String × Topic) → Topic

def Topic.name : Topic → String
  | .mk n _ _ => n

def Topic.requirements : Topic → List (String × Requirement)
  | .mk _ r _ => r

def Topic.subtopics : Topic → List (String × Topic)
  | .mk _ _ s => s

/-- `Version` from lib.rs (`u64` fields modelled as `Nat`; the `u64`
range check is explicit in `parseU64`). -/
structure Version where
  major : Nat
  minor : Nat
  patch : Nat
deriving DecidableEq

/-- The digit part of `str::parse::<u64>`: one or more decimal digits
whose value fits in 64 bits. -/
def parseU64_digits (l : List Char) : Option Nat :=
  if l ≠ [] ∧ l.all Char.isDigit then
    if l.foldl (fun acc c => acc * 10 + (c.toNat - 48)) 0
        < 18446744073709551616 then
      some (l.foldl (fun acc c => acc * 10 + (c.toNat - 48)) 0)
    else none
  else none

/-- Embeds `str::parse::<u64>`: an optional leading `+`, then one or more
decimal digits, whose value must fit in 64 bits. -/
def parseU64 (s : String) : Option Nat :=
  parseU64_digits (if strStartsWith s "+" then s.data.tail else s.data)

/-- `deserialize_version` (lib.rs lines 91-115): split on `.`, require
exactly three parts, parse each as `u64`. -/
def deserialize_version (value : String) : Option Version :=
  match (splitOnChar '.' value.data).map String.mk with
  | [p0, p1, p2] =>
    match parseU64 p0, parseU64 p1, parseU64 p2 with
    | some major, some minor, some patch => some ⟨major, minor, patch⟩
    | _, _, _ => none
  | _ => none

/-- `impl fmt::Display for Version` (lib.rs lines 63-67). -/
def Version.fmt (v : Version) : String :=
  toString v.major ++ "." ++ toString v.minor ++ "." ++ toString v.patch

/-- Spec-side digit-part predicate for the amended claim C8: one or more
decimal digits whose value fits in 64 bits.  Stated independently of
`parseU64_digits` so acceptance can be compared against it. -/
def versionShapeDigits (l : List Char) : Bool :=
  (decide (l ≠ [])) && l.all Char.isDigit
    && decide (l.foldl (fun acc c => acc * 10 + (c.toNat - 48)) 0
        < 18446744073709551616)

/-- Spec-side shape predicate for the amended claim C8, following the
amended wording: a version component is an optional leading `+` followed
by one or more decimal digits whose value fits in 64 bits. -/
def versionShapeComp (t : String) : Bool :=
  versionShapeDigits (if strStartsWith t "+" then t.data.tail else t.data)

/-- Spec-side shape predicate for the amended claim C8: exactly three
`.`-separated components, each a valid 64-bit unsigned literal. -/
def versionShape (value : String) : Bool :=
  match (splitOnChar '.' value.data).map String.mk with
  | [p0, p1, p2] => versionShapeComp p0 && versionShapeComp p1 && versionShapeComp p2
  | _ => false

/-! ## Keyword-emphasis pass (main.rs lines 19-30 and 304-308) -/

/-- `HIGHLIGHTED_WORDS` from main.rs. -/
def HIGHLIGHTED_WORDS : List String :=
  ["must not", "must", "required", "shall not", "shall",
   "should not", "should", "recommended", "may", "optional"]

/-- `str::to_uppercase`, character-wise (all highlighted words are
ASCII). -/
def strUpper (s : String) : String :=
  String.mk (s.data.map Char.toUpper)

/-- The replacement text `format!("**_{}_**", word.to_uppercase())`. -/
def wrapWord (w : String) : String :=
  "**_" ++ strUpper w ++ "_**"

/-- The final substitution pass of `to_markdown` (main.rs lines 305-307):
fold `str::replace` over `HIGHLIGHTED_WORDS` in the given order. -/
def highlight_pass (s : String) : String :=
  HIGHLIGHTED_WORDS.foldl (fun out word => strReplace out word (wrapWord word)) s

/-! ## Compliance checker (main.rs lines 36-147) -/

/-- The default allowed-requirement pattern: the checker calls
`Regex::is_match` with the regex `REQ-.*`, which succeeds exactly when
the identifier contains the substring `REQ-`. -/
def reqPattern : String → Bool :=
  fun id => strContains id "REQ-"

/-- The error messages collected for a failing requirement
(main.rs lines 46-54): every line beginning with the marker
`<trimmed-id>: failed`, restricted to the text after the first `:`, then
the text after the first `-` of that remainder. -/
def failErrors (test_results : String) (tid : String) : List String :=
  (rustLines test_results).filterMap (fun l =>
    if listPrefixOf (tid ++ ": failed").data l.data = true then
      match split_once l ':' with
      | none => none
      | some (_, txt) =>
        match split_once txt '-' with
        | none => none
        | some (_, err) => some err
    else none)

/-- `check_requirements` (main.rs lines 36-63). -/
def check_requirements (test_results : String)
    (output : List (String × (Bool × List String)))
    (requirements : List (String × Requirement))
    (allowed_requirements : List (String → Bool)) :
    List (String × (Bool × List String)) :=
  requirements.foldl
    (fun out kv =>
      if allowed_requirements.any (fun r => r kv.1) then
        if strContains test_results (strTrim kv.1 ++ ": failed") then
          imInsert out (strTrim kv.1)
            (false, failErrors test_results (strTrim kv.1))
        else if strContains test_results (strTrim kv.1 ++ ": passed") then
          imOrInsert out (strTrim kv.1) (true, [])
        else out
      else out)
    output

/-- `has_valid_requirements` (main.rs lines 65-70). -/
def has_valid_requirements (requirements : List (String × Requirement))
    (allowed_requirements : List (String → Bool)) : Bool :=
  requirements.any (fun kv => allowed_requirements.any (fun r => r kv.1))

/-- `has_valid_topics` (main.rs lines 72-77). -/
def has_valid_topics : List (String × Topic) → List (String → Bool) → Bool
  | [], _ => false
  | (_, .mk _ reqs subs) :: rest, allowed =>
    (has_valid_requirements reqs allowed || has_valid_topics subs allowed)
      || has_valid_topics rest allowed

/-- The per-topic skip test of the `check_topics` loop (main.rs lines
90-94): a topic is processed iff its subtopic subtree or its own
requirement list contains an allowed identifier. -/
def topicValid (t : Topic) (allowed : List (String → Bool)) : Bool :=
  has_valid_topics t.subtopics allowed
    || has_valid_requirements t.requirements allowed

/-- `nl` (main.rs lines 32-34): the blank separator line. -/
def nl : String := ""

/-- `"#".repeat(level)`. -/
def hashes (level : Nat) : String :=
  String.mk (List.replicate level '#')

/-- The topic heading pushed by `check_topics` (main.rs lines 95-100):
the topic name is NOT trimmed here. -/
def topic_heading (level : Nat) (id : String) (t : Topic) : String :=
  hashes level ++ " _" ++ strTrim id ++ "_ - " ++ t.name

/-- The file-reading status loop of `check_topics` (main.rs lines
102-113): read every test-result text in order (any failure aborts), and
fold `check_requirements` over the texts when the topic has
requirements. -/
def read_statuses (read : String → Except String String)
    (test_results : List String)
    (status : List (String × (Bool × List String)))
    (requirements : List (String × Requirement))
    (allowed : List (String → Bool)) :
    Except String (List (String × (Bool × List String))) :=
  match test_results with
  | [] => .ok status
  | p :: ps =>
    match read p with
    | .error e => .error e
    | .ok text =>
      read_statuses read ps
        (if requirements.isEmpty then status
         else check_requirements text status requirements allowed)
        requirements allowed

/-- The requirement-report loop of `check_topics` (main.rs lines
115-130): one bullet per requirement with its status marker, then one
indented line per collected error message. -/
def render_requirements (test_status : List (String × (Bool × List String)))
    (requirements : List (String × Requirement)) : List String :=
  match requirements with
  | [] => []
  | (id, req) :: rest =>
    let se : String × List String :=
      match imLookup test_status id with
      | some (st, errs) => (if st then ":white_check_mark:" else ":x:", errs)
      | none => (":warning:", [])
    ("- _" ++ strTrim id ++ "_ - " ++ req.name ++ ": " ++ se.1)
      :: (se.2.map (fun err => "  - " ++ strTrim err)
          ++ render_requirements test_status rest)

/-- The `for (id, topic) in topics` loop of `check_topics` (main.rs
lines 89-145).  The recursive `check_topics` call on the subtopics
(line 136) appears here with the entry guard of `check_topics` (line 86)
inlined; the wrapper `check_topics` below restores the source's exact
shape, and the inlined expression is definitionally equal to
`check_topics read test_results t.subtopics allowed (level + 1)`. -/
def check_topics_go (read : String → Except String String)
    (test_results : List String) (topics : List (String × Topic))
    (allowed : List (String → Bool)) (level : Nat) :
    Except String (List String) :=
  match topics with
  | [] => .ok []
  | (id, t) :: rest =>
    if topicValid t allowed then
      match read_statuses read test_results [] t.requirements allowed with
      | .error e => .error e
      | .ok test_status =>
        match
          (if t.subtopics.isEmpty then Except.ok ([] : List String)
           else
             match
               (if has_valid_topics t.subtopics allowed then
                 check_topics_go read test_results t.subtopics allowed
                   (level + 1)
               else .ok []) with
             | .error e => .error e
             | .ok sub => .ok (sub ++ [nl])) with
        | .error e => .error e
        | .ok subLines =>
          match check_topics_go read test_results rest allowed level with
          | .error e => .error e
          | .ok restLines =>
            .ok (topic_heading level id t
              :: ((if t.requirements.isEmpty then []
                   else render_requirements test_status t.requirements ++ [nl])
                  ++ subLines ++ restLines))
    else
      check_topics_go read test_results rest allowed level
termination_by sizeOf topics
decreasing_by
  all_goals simp_wf
  all_goals cases t
  all_goals simp [Topic.subtopics]
  all_goals omega

/-- `check_topics` (main.rs lines 79-147).  The `&mut Vec<String>` output
parameter becomes the returned line list; `std::fs::read_to_string`
becomes the abstract `read` function; the `?` propagation becomes
`Except`.  Lines pushed before a failing read are discarded exactly as
`main` discards them (it only prints on `Ok`). -/
def check_topics (read : String → Except String String)
    (test_results : List String) (topics : List (String × Topic))
    (allowed : List (String → Bool)) (level : Nat) :
    Except String (List String) :=
  if has_valid_topics topics allowed then
    check_topics_go read test_results topics allowed level
  else
    .ok []

/-- The `Check` arm of `main` (main.rs lines 337-352): title line, the
root `check_topics` call at level 2, lines joined by newlines.  The
printed report is the returned string; a read failure yields the
propagated error and no report. -/
def check_command (read : String → Except String String) (name : String)
    (topics : List (String × Topic)) (allowed : List (String → Bool))
    (test_results : List String) : Except String String :=
  match check_topics read test_results topics allowed 2 with
  | .error e => .error e
  | .ok lines =>
    .ok (String.intercalate "\n" (("# Test Results - " ++ name) :: lines))

/-! ## Document renderer (main.rs lines 149-179) -/

/-- `add_requirements` (main.rs lines 149-161). -/
def add_requirements : List (String × Requirement) → List String
  | [] => []
  | (id, requirement) :: rest =>
    ("- **_" ++ strTrim id ++ "_ - " ++ strTrim requirement.name ++ ":** "
        ++ strTrim requirement.description)
      :: (requirement.additional_info.map (fun info => "  - " ++ strTrim info)
          ++ add_requirements rest)

/-- `add_topics` (main.rs lines 163-179): the renderer trims the topic
name in its heading. -/
def add_topics : List (String × Topic) → Nat → List String
  | [], _ => []
  | (id, .mk nm reqs subs) :: rest, level =>
    (hashes level ++ " _" ++ strTrim id ++ "_ - " ++ strTrim nm)
      :: ((if reqs.isEmpty then [] else add_requirements reqs ++ [nl])
          ++ (if subs.isEmpty then [] else add_topics subs (level + 1))
          ++ add_topics rest level)

/-! ## Lemmas about the string primitives -/

lemma listPrefixOf_nil_iff (q : List Char) : listPrefixOf q [] = true ↔ q = [] := by
  cases q <;> simp [listPrefixOf]

lemma listPrefixOf_cons_iff (a b : Char) (as bs : List Char) :
    listPrefixOf (a :: as) (b :: bs) = true ↔ a = b ∧ listPrefixOf as bs = true := by
  simp [listPrefixOf]

lemma listPrefixOf_nil_left (l : List Char) : listPrefixOf [] l = true := by
  cases l <;> simp [listPrefixOf]

/-- A prefix of `a ++ b` either stays inside `a` or swallows all of `a`
and continues as a prefix of `b`. -/
lemma listPrefixOf_append_split (q a b : List Char)
    (h : listPrefixOf q (a ++ b) = true) :
    listPrefixOf q a = true ∨ ∃ q2, q = a ++ q2 ∧ listPrefixOf q2 b = true := by
  induction a generalizing q with
  | nil => exact Or.inr ⟨q, rfl, by simpa using h⟩
  | cons x a2 ih =>
    cases q with
    | nil => exact Or.inl (listPrefixOf_nil_left _)
    | cons y q2 =>
      rw [List.cons_append, listPrefixOf_cons_iff] at h
      rcases ih q2 h.2 with h2 | ⟨q3, rfl, h3⟩
      · exact Or.inl ((listPrefixOf_cons_iff _ _ _ _).mpr ⟨h.1, h2⟩)
      · exact Or.inr ⟨q3, by rw [h.1, List.cons_append], h3⟩

lemma listInfixOf_of_listPrefixOf (q l : List Char)
    (h : listPrefixOf q l = true) : listInfixOf q l = true := by
  cases l with
  | nil => simpa [listInfixOf, List.isEmpty_iff] using (listPrefixOf_nil_iff q).mp h
  | cons c t => simp [listInfixOf, h]

lemma listInfixOf_cons_false (q : List Char) (c : Char) (t : List Char)
    (h : listInfixOf q (c :: t) = false) :
    listPrefixOf q (c :: t) = false ∧ listInfixOf q t = false := by
  simpa [listInfixOf] using h

lemma listInfixOf_tail_false (q : List Char) (c : Char) (t : List Char)
    (h : listInfixOf q (c :: t) = false) : listInfixOf q t = false :=
  (listInfixOf_cons_false q c t h).2

lemma listInfixOf_drop_false (q l : List Char) (n : Nat)
    (h : listInfixOf q l = false) : listInfixOf q (l.drop n) = false := by
  induction l generalizing n with
  | nil => simpa [List.drop_nil] using h
  | cons c t ih =>
    cases n with
    | zero => simpa using h
    | succ m => exact ih m (listInfixOf_tail_false q c t h)

lemma mem_of_getLast?_eq (l : List Char) (a : Char) (h : l.getLast? = some a) :
    a ∈ l := by
  induction l with
  | nil => simp at h
  | cons c t ih =>
    cases t with
    | nil => simp_all [List.getLast?]
    | cons d u =>
      rw [List.getLast?_cons_cons] at h
      exact List.mem_cons_of_mem c (ih h)

lemma getLast?_cons_ne_nil (c : Char) (t : List Char) (ht : t ≠ []) :
    (c :: t).getLast? = t.getLast? := by
  cases t with
  | nil => exact absurd rfl ht
  | cons d u => exact List.getLast?_cons_cons

/-- No occurrence of `q` inside `a ++ b` can be created by the
concatenation when `q` occurs in neither part, `a` ends in `'*'`, and
`q` avoids `'*'`: an occurrence overlapping the seam would have to
contain the final `'*'` of `a`. -/
lemma listInfixOf_append_false (q a b : List Char)
    (hq : q ≠ []) (hstar : ('*' : Char) ∉ q)
    (ha : listInfixOf q a = false)
    (hlast : a = [] ∨ a.getLast? = some ('*' : Char))
    (hb : listInfixOf q b = false) :
    listInfixOf q (a ++ b) = false := by
  induction a with
  | nil => simpa using hb
  | cons x a2 ih =>
    have hx := listInfixOf_cons_false q x a2 ha
    have hlast2 : a2 = [] ∨ a2.getLast? = some ('*' : Char) := by
      rcases hlast with h | h
      · exact absurd h (List.cons_ne_nil x a2)
      · cases a2 with
        | nil => exact Or.inl rfl
        | cons d u => exact Or.inr (by rwa [getLast?_cons_ne_nil x _ (List.cons_ne_nil d u)] at h)
    have htail : listInfixOf q (a2 ++ b) = false := ih hx.2 hlast2
    rw [List.cons_append]
    rw [show listInfixOf q (x :: (a2 ++ b))
        = (listPrefixOf q (x :: (a2 ++ b)) || listInfixOf q (a2 ++ b)) from rfl]
    rw [htail, Bool.or_false]
    cases hpre : listPrefixOf q (x :: (a2 ++ b)) with
    | false => rfl
    | true =>
      exfalso
      rw [show (x : Char) :: (a2 ++ b) = (x :: a2) ++ b from rfl] at hpre
      rcases listPrefixOf_append_split q (x :: a2) b hpre with h1 | ⟨q2, rfl, _⟩
      · rw [listInfixOf_of_listPrefixOf q (x :: a2) h1] at ha
        simp at ha
      · rcases hlast with h | h
        · exact List.cons_ne_nil x a2 h
        · exact hstar (List.mem_append_left q2 (mem_of_getLast?_eq _ _ h))

/-- A pattern that does not occur in the text is never replaced:
`replaceAllF` is the identity there, for any fuel. -/
lemma replaceAllF_of_not_infixOf (pat rep : List Char) (f : Nat) (s : List Char)
    (h : listInfixOf pat s = false) : replaceAllF f pat rep s = s := by
  induction f generalizing s with
  | zero => rfl
  | succ f ih =>
    cases s with
    | nil => rfl
    | cons c rest =>
      have hx := listInfixOf_cons_false pat c rest h
      rw [show replaceAllF (f + 1) pat rep (c :: rest)
          = if pat ≠ [] ∧ listPrefixOf pat (c :: rest) = true then
              rep ++ replaceAllF f pat rep (rest.drop (pat.length - 1))
            else c :: replaceAllF f pat rep rest from rfl]
      rw [if_neg (by simp [hx.1])]
      rw [ih rest hx.2]

/-- Prefix reflection: when the replacement starts with `'*'` and `q`
avoids `'*'`, any `q` that is a prefix of the replaced text was already a
prefix of the original text. -/
lemma listPrefixOf_replaceAllF (pat rep : List Char)
    (hhead : rep.head? = some ('*' : Char)) (f : Nat) :
    ∀ (s q : List Char), ('*' : Char) ∉ q →
      listPrefixOf q (replaceAllF f pat rep s) = true →
      listPrefixOf q s = true := by
  induction f with
  | zero => intro s q _ h; exact h
  | succ f ih =>
    intro s q hstar h
    cases s with
    | nil =>
      rw [show replaceAllF (f + 1) pat rep [] = [] from rfl] at h
      rw [(listPrefixOf_nil_iff q).mp h]
      exact listPrefixOf_nil_left []
    | cons c rest =>
      rw [show replaceAllF (f + 1) pat rep (c :: rest)
          = if pat ≠ [] ∧ listPrefixOf pat (c :: rest) = true then
              rep ++ replaceAllF f pat rep (rest.drop (pat.length - 1))
            else c :: replaceAllF f pat rep rest from rfl] at h
      by_cases hc : pat ≠ [] ∧ listPrefixOf pat (c :: rest) = true
      · rw [if_pos hc] at h
        cases q with
        | nil => exact listPrefixOf_nil_left _
        | cons y q2 =>
          exfalso
          cases rep with
          | nil => simp at hhead
          | cons r0 rtail =>
            have hr0 : r0 = '*' := by simpa using hhead
            rw [List.cons_append, listPrefixOf_cons_iff] at h
            exact hstar (by rw [h.1, hr0]; exact List.mem_cons_self _ _)
      · rw [if_neg hc] at h
        cases q with
        | nil => exact listPrefixOf_nil_left _
        | cons y q2 =>
          rw [listPrefixOf_cons_iff] at h
          have h2 := ih rest q2 (fun hm => hstar (List.mem_cons_of_mem y hm)) h.2
          exact (listPrefixOf_cons_iff _ _ _ _).mpr ⟨h.1, h2⟩

/-- After replacing `pat` (which avoids `'*'`) by a replacement starting
with `'*'`, `pat` is not a prefix of the result. -/
lemma listPrefixOf_self_replaceAllF (pat rep : List Char)
    (hp : pat ≠ []) (hstar : ('*' : Char) ∉ pat)
    (hhead : rep.head? = some ('*' : Char)) :
    ∀ (f : Nat) (s : List Char), s.length ≤ f →
      listPrefixOf pat (replaceAllF f pat rep s) = false := by
  intro f s hf
  cases f with
  | zero =>
    have : s = [] := List.length_eq_zero.mp (Nat.le_zero.mp hf)
    subst this
    cases pat with
    | nil => exact absurd rfl hp
    | cons a as => rfl
  | succ f =>
    cases s with
    | nil =>
      cases pat with
      | nil => exact absurd rfl hp
      | cons a as => rfl
    | cons c rest =>
      rw [show replaceAllF (f + 1) pat rep (c :: rest)
          = if pat ≠ [] ∧ listPrefixOf pat (c :: rest) = true then
              rep ++ replaceAllF f pat rep (rest.drop (pat.length - 1))
            else c :: replaceAllF f pat rep rest from rfl]
      by_cases hc : pat ≠ [] ∧ listPrefixOf pat (c :: rest) = true
      · rw [if_pos hc]
        cases pat with
        | nil => exact absurd rfl hp
        | cons a as =>
          cases rep with
          | nil => simp at hhead
          | cons r0 rtail =>
            have hr0 : r0 = '*' := by simpa using hhead
            rw [List.cons_append]
            cases hpre : listPrefixOf (a :: as) (r0 :: (rtail ++ replaceAllF f (a :: as) (r0 :: rtail) (rest.drop ((a :: as).length - 1)))) with
            | false => rfl
            | true =>
              exfalso
              rw [listPrefixOf_cons_iff] at hpre
              exact hstar (by rw [hpre.1, hr0]; exact List.mem_cons_self _ _)
      · rw [if_neg hc]
        cases hpre : listPrefixOf pat (c :: replaceAllF f pat rep rest) with
        | false => rfl
        | true =>
          exfalso
          cases pat with
          | nil => exact absurd rfl hp
          | cons a as =>
            rw [listPrefixOf_cons_iff] at hpre
            have has : ('*' : Char) ∉ as := fun hm => hstar (List.mem_cons_of_mem a hm)
            have h2 := listPrefixOf_replaceAllF (a :: as) rep hhead f rest as has hpre.2
            exact hc ⟨List.cons_ne_nil a as, (listPrefixOf_cons_iff _ _ _ _).mpr ⟨hpre.1, h2⟩⟩

/-- Self-clearing: after the replacement pass for `pat`, `pat` no longer
occurs anywhere in the text (conditions as in the other lemmas; the
replacement also must not contain `pat` and must end in `'*'`). -/
lemma listInfixOf_self_replaceAllF (pat rep : List Char)
    (hp : pat ≠ []) (hstar : ('*' : Char) ∉ pat)
    (hrep : listInfixOf pat rep = false)
    (hhead : rep.head? = some ('*' : Char))
    (hlast : rep.getLast? = some ('*' : Char)) :
    ∀ (f : Nat) (s : List Char), s.length ≤ f →
      listInfixOf pat (replaceAllF f pat rep s) = false := by
  intro f
  induction f with
  | zero =>
    intro s hf
    have : s = [] := List.length_eq_zero.mp (Nat.le_zero.mp hf)
    subst this
    simpa [listInfixOf, List.isEmpty_iff] using hp
  | succ f ih =>
    intro s hf
    cases s with
    | nil => simpa [listInfixOf, List.isEmpty_iff, replaceAllF] using hp
    | cons c rest =>
      have hrest : rest.length ≤ f := Nat.le_of_succ_le_succ hf
      rw [show replaceAllF (f + 1) pat rep (c :: rest)
          = if pat ≠ [] ∧ listPrefixOf pat (c :: rest) = true then
              rep ++ replaceAllF f pat rep (rest.drop (pat.length - 1))
            else c :: replaceAllF f pat rep rest from rfl]
      by_cases hc : pat ≠ [] ∧ listPrefixOf pat (c :: rest) = true
      · rw [if_pos hc]
        apply listInfixOf_append_false pat rep _ hp hstar hrep
        · exact Or.inr hlast
        · apply ih
          calc (rest.drop (pat.length - 1)).length ≤ rest.length := by
                simp [List.length_drop]
            _ ≤ f := hrest
      · rw [if_neg hc]
        have htail : listInfixOf pat (replaceAllF f pat rep rest) = false := ih rest hrest
        rw [show listInfixOf pat (c :: replaceAllF f pat rep rest)
            = (listPrefixOf pat (c :: replaceAllF f pat rep rest)
               || listInfixOf pat (replaceAllF f pat rep rest)) from rfl]
        rw [htail, Bool.or_false]
        cases hpre : listPrefixOf pat (c :: replaceAllF f pat rep rest) with
        | false => rfl
        | true =>
          exfalso
          cases pat with
          | nil => exact absurd rfl hp
          | cons a as =>
            rw [listPrefixOf_cons_iff] at hpre
            have has : ('*' : Char) ∉ as := fun hm => hstar (List.mem_cons_of_mem a hm)
            have h2 := listPrefixOf_replaceAllF (a :: as) rep hhead f rest as has hpre.2
            exact hc ⟨List.cons_ne_nil a as, (listPrefixOf_cons_iff _ _ _ _).mpr ⟨hpre.1, h2⟩⟩

/-- Preservation: replacing some other pattern cannot create an
occurrence of a word `q` that was absent, provided `q` avoids `'*'`, the
replacement text does not contain `q`, and the replacement starts and
ends with `'*'`. -/
lemma listInfixOf_replaceAllF_mono (pat rep q : List Char)
    (hq : q ≠ []) (hstar : ('*' : Char) ∉ q)
    (hqrep : listInfixOf q rep = false)
    (hhead : rep.head? = some ('*' : Char))
    (hlast : rep.getLast? = some ('*' : Char)) :
    ∀ (f : Nat) (s : List Char), listInfixOf q s = false →
      listInfixOf q (replaceAllF f pat rep s) = false := by
  intro f
  induction f with
  | zero => intro s hs; exact hs
  | succ f ih =>
    intro s hs
    cases s with
    | nil => simpa [listInfixOf, List.isEmpty_iff, replaceAllF] using hq
    | cons c rest =>
      have hx := listInfixOf_cons_false q c rest hs
      rw [show replaceAllF (f + 1) pat rep (c :: rest)
          = if pat ≠ [] ∧ listPrefixOf pat (c :: rest) = true then
              rep ++ replaceAllF f pat rep (rest.drop (pat.length - 1))
            else c :: replaceAllF f pat rep rest from rfl]
      by_cases hc : pat ≠ [] ∧ listPrefixOf pat (c :: rest) = true
      · rw [if_pos hc]
        apply listInfixOf_append_false q rep _ hq hstar hqrep (Or.inr hlast)
        exact ih _ (listInfixOf_drop_false q rest _ hx.2)
      · rw [if_neg hc]
        have htail := ih rest hx.2
        rw [show listInfixOf q (c :: replaceAllF f pat rep rest)
            = (listPrefixOf q (c :: replaceAllF f pat rep rest)
               || listInfixOf q (replaceAllF f pat rep rest)) from rfl]
        rw [htail, Bool.or_false]
        cases hpre : listPrefixOf q (c :: replaceAllF f pat rep rest) with
        | false => rfl
        | true =>
          exfalso
          cases q with
          | nil => exact absurd rfl hq
          | cons a as =>
            rw [listPrefixOf_cons_iff] at hpre
            have has : ('*' : Char) ∉ as := fun hm => hstar (List.mem_cons_of_mem a hm)
            have h2 := listPrefixOf_replaceAllF pat rep hhead f rest as has hpre.2
            rw [(listPrefixOf_cons_iff _ _ _ _).mpr ⟨hpre.1, h2⟩] at hx
            simp at hx

lemma String.mk_data (s : String) : String.mk s.data = s := rfl

lemma strReplace_data (s pat rep : String) :
    (strReplace s pat rep).data = replaceAllF s.data.length pat.data rep.data s.data := rfl

/-- A text containing none of the words is left unchanged by the
emphasis fold. -/
lemma highlight_fold_id (ws : List String) (s : String)
    (h : ∀ w ∈ ws, listInfixOf w.data s.data = false) :
    ws.foldl (fun out word => strReplace out word (wrapWord word)) s = s := by
  induction ws with
  | nil => rfl
  | cons w rest ih =>
    rw [List.foldl_cons]
    have hstep : strReplace s w (wrapWord w) = s := by
      have := replaceAllF_of_not_infixOf w.data (wrapWord w).data s.data.length s.data
        (h w (List.mem_cons_self _ _))
      calc strReplace s w (wrapWord w)
          = String.mk (replaceAllF s.data.length w.data (wrapWord w).data s.data) := rfl
        _ = String.mk s.data := by rw [this]
        _ = s := String.mk_data s
    rw [hstep]
    exact ih (fun w2 hw2 => h w2 (List.mem_cons_of_mem w hw2))

/-- A word absent from the text stays absent through the emphasis fold,
as long as it does not occur inside any replacement text. -/
lemma highlight_fold_keeps (ws : List String) (q : List Char)
    (hq : q ≠ []) (hstar : ('*' : Char) ∉ q)
    (hrep : ∀ w ∈ ws, listInfixOf q (wrapWord w).data = false
        ∧ (wrapWord w).data.head? = some ('*' : Char)
        ∧ (wrapWord w).data.getLast? = some ('*' : Char)) :
    ∀ s : String, listInfixOf q s.data = false →
      listInfixOf q ((ws.foldl (fun out word => strReplace out word (wrapWord word)) s)).data
        = false := by
  induction ws with
  | nil => intro s hs; exact hs
  | cons w rest ih =>
    intro s hs
    rw [List.foldl_cons]
    apply ih (fun w2 hw2 => hrep w2 (List.mem_cons_of_mem w hw2))
    rw [strReplace_data]
    have hw := hrep w (List.mem_cons_self _ _)
    exact listInfixOf_replaceAllF_mono w.data (wrapWord w).data q hq hstar
      hw.1 hw.2.1 hw.2.2 s.data.length s.data hs

/-- After the emphasis fold, none of the (pairwise seam-safe) words
occurs in the result any more. -/
lemma highlight_fold_clears (ws : List String)
    (hcond : ∀ w ∈ ws, w.data ≠ [] ∧ ('*' : Char) ∉ w.data
        ∧ ∀ w2 ∈ ws, listInfixOf w.data (wrapWord w2).data = false)
    (hwrap : ∀ w ∈ ws, (wrapWord w).data.head? = some ('*' : Char)
        ∧ (wrapWord w).data.getLast? = some ('*' : Char)) :
    ∀ s : String, ∀ w ∈ ws,
      listInfixOf w.data
        ((ws.foldl (fun out word => strReplace out word (wrapWord word)) s)).data = false := by
  induction ws with
  | nil => intro s w hw; simp at hw
  | cons w0 rest ih =>
    intro s w hw
    rw [List.foldl_cons]
    rcases List.mem_cons.mp hw with rfl | hwr
    · have hc := hcond w (List.mem_cons_self _ _)
      have hw0 := hwrap w (List.mem_cons_self _ _)
      apply highlight_fold_keeps rest w.data hc.1 hc.2.1
        (fun w2 hw2 => ⟨hc.2.2 w2 (List.mem_cons_of_mem _ hw2),
          (hwrap w2 (List.mem_cons_of_mem _ hw2)).1,
          (hwrap w2 (List.mem_cons_of_mem _ hw2)).2⟩)
      rw [strReplace_data]
      exact listInfixOf_self_replaceAllF w.data (wrapWord w).data hc.1 hc.2.1
        (hc.2.2 w (List.mem_cons_self _ _)) hw0.1 hw0.2
        s.data.length s.data (Nat.le_refl _)
    · exact ih
        (fun w2 hw2 => ⟨(hcond w2 (List.mem_cons_of_mem _ hw2)).1,
          (hcond w2 (List.mem_cons_of_mem _ hw2)).2.1,
          fun w3 hw3 => (hcond w2 (List.mem_cons_of_mem _ hw2)).2.2 w3
            (List.mem_cons_of_mem _ hw3)⟩)
        (fun w2 hw2 => hwrap w2 (List.mem_cons_of_mem _ hw2))
        (strReplace s w0 (wrapWord w0)) w hwr

/-- The concrete seam-safety conditions of `HIGHLIGHTED_WORDS`: each word
is nonempty, avoids `'*'`, and occurs in no replacement text; each
replacement text starts and ends with `'*'`. -/
lemma highlighted_words_seam_safe :
    (∀ w ∈ HIGHLIGHTED_WORDS, w.data ≠ [] ∧ ('*' : Char) ∉ w.data
        ∧ ∀ w2 ∈ HIGHLIGHTED_WORDS, listInfixOf w.data (wrapWord w2).data = false)
    ∧ ∀ w ∈ HIGHLIGHTED_WORDS, (wrapWord w).data.head? = some ('*' : Char)
        ∧ (wrapWord w).data.getLast? = some ('*' : Char) := by
  constructor <;> decide

/-- Claim C3, counterexample: the keyword-emphasis pass is NOT
case-insensitive.  The text `Must` contains the keyword `must` up to
letter case, yet the pass leaves it untouched instead of producing the
wrapped upper-cased form. -/
theorem keyword_emphasis_not_case_insensitive :
    highlight_pass "Must" = "Must" ∧ highlight_pass "Must" ≠ "**_MUST_**" := by
  constructor
  · decide
  · decide

/-- Claim C3 (amended): the final keyword-emphasis pass of `render` is
case-SENSITIVE: a text with no occurrence of any keyword in its exact
lowercase form is left unchanged (so occurrences in any other letter
case are not replaced), while exact lowercase occurrences are replaced
by the upper-cased form wrapped in strong+italic markers, with the list
applied in the given order. -/
theorem keyword_emphasis_case_sensitive :
    (∀ s : String,
      (∀ w ∈ HIGHLIGHTED_WORDS, listInfixOf w.data s.data = false) →
      highlight_pass s = s)
    ∧ highlight_pass "it must be" = "it **_MUST_** be" := by
  constructor
  · intro s h
    exact highlight_fold_id HIGHLIGHTED_WORDS s h
  · decide

/-- Witness for `keyword_emphasis_case_sensitive`: a concrete text whose
keyword occurrences are all upper-case is left unchanged. -/
theorem keyword_emphasis_case_sensitive_witness :
    highlight_pass "THE VALUE MUST BE SET" = "THE VALUE MUST BE SET" :=
  keyword_emphasis_case_sensitive.1 "THE VALUE MUST BE SET" (by decide)

/-- Claim C4: the keyword-emphasis pass is idempotent: applying the
substitution pass (fixed replacement-list order, longer phrases first) a
second time to the result of applying it once yields the same text — no
keyword is double-wrapped, because after one pass no lowercase keyword
occurrence remains and none can be re-created by any replacement. -/
theorem keyword_emphasis_idempotent (s : String) :
    highlight_pass (highlight_pass s) = highlight_pass s := by
  have hc := highlighted_words_seam_safe
  exact highlight_fold_id HIGHLIGHTED_WORDS (highlight_pass s)
    (highlight_fold_clears HIGHLIGHTED_WORDS hc.1 hc.2 s)

/-! ## Lemmas about trimming and the ordered map -/

lemma dropWhile_head_false (p : Char → Bool) (l : List Char) (c : Char)
    (t : List Char) (h : l.dropWhile p = c :: t) : p c = false := by
  induction l with
  | nil => simp at h
  | cons a l2 ih =>
    rw [List.dropWhile_cons] at h
    by_cases hp : p a = true
    · exact ih (by simpa [hp] using h)
    · have hp2 : p a = false := by simpa using hp
      rw [if_neg (by simp [hp2])] at h
      rw [← (List.cons_eq_cons.mp h).1]
      exact hp2

lemma dropWhile_eq_self (p : Char → Bool) (l : List Char)
    (h : ∀ c, l.head? = some c → p c = false) : l.dropWhile p = l := by
  cases l with
  | nil => rfl
  | cons c t =>
    have := h c rfl
    rw [List.dropWhile_cons, if_neg (by simp [this])]

lemma dropWhile_getLast? (p : Char → Bool) (l : List Char)
    (h : l.dropWhile p ≠ []) : (l.dropWhile p).getLast? = l.getLast? := by
  induction l with
  | nil => simp at h
  | cons a t ih =>
    rw [List.dropWhile_cons]
    by_cases hp : p a = true
    · rw [if_pos (by simp [hp])]
      rw [List.dropWhile_cons, if_pos (by simp [hp])] at h
      have ht : t ≠ [] := by
        intro he
        exact h (by simp [he])
      rw [ih h, getLast?_cons_ne_nil a t ht]
    · rw [if_neg (by simpa using hp)]

lemma strTrim_data (s : String) :
    (strTrim s).data
      = ((s.data.dropWhile Char.isWhitespace).reverse.dropWhile
          Char.isWhitespace).reverse := rfl

lemma strTrim_head_not_wsp (s : String) (c : Char)
    (h : (strTrim s).data.head? = some c) : Char.isWhitespace c = false := by
  rw [strTrim_data, List.head?_reverse] at h
  have hne : (s.data.dropWhile Char.isWhitespace).reverse.dropWhile
      Char.isWhitespace ≠ [] := by
    intro he
    rw [he] at h
    simp at h
  rw [dropWhile_getLast? _ _ hne, List.getLast?_reverse] at h
  cases hA : s.data.dropWhile Char.isWhitespace with
  | nil => rw [hA] at h; simp at h
  | cons a t =>
    rw [hA] at h
    have : a = c := by simpa using h
    exact this ▸ dropWhile_head_false _ _ _ _ hA

lemma strTrim_last_not_wsp (s : String) (c : Char)
    (h : (strTrim s).data.getLast? = some c) : Char.isWhitespace c = false := by
  rw [strTrim_data, List.getLast?_reverse] at h
  cases hC : (s.data.dropWhile Char.isWhitespace).reverse.dropWhile
      Char.isWhitespace with
  | nil => rw [hC] at h; simp at h
  | cons a t =>
    rw [hC] at h
    have : a = c := by simpa using h
    exact this ▸ dropWhile_head_false _ _ _ _ hC

lemma strTrim_eq_self (s : String)
    (h1 : ∀ c, s.data.head? = some c → Char.isWhitespace c = false)
    (h2 : ∀ c, s.data.getLast? = some c → Char.isWhitespace c = false) :
    strTrim s = s := by
  have hA : s.data.dropWhile Char.isWhitespace = s.data :=
    dropWhile_eq_self _ _ h1
  have hB : s.data.reverse.dropWhile Char.isWhitespace = s.data.reverse :=
    dropWhile_eq_self _ _ (fun c hc => h2 c (by rwa [List.head?_reverse] at hc))
  calc strTrim s
      = String.mk ((s.data.reverse.dropWhile Char.isWhitespace).reverse) := by
        rw [strTrim, hA]
    _ = String.mk s.data := by rw [hB, List.reverse_reverse]
    _ = s := String.mk_data s

lemma strTrim_idem (s : String) : strTrim (strTrim s) = strTrim s :=
  strTrim_eq_self (strTrim s) (strTrim_head_not_wsp s) (strTrim_last_not_wsp s)

lemma imLookup_imInsert_self {α : Type} (m : List (String × α)) (k : String)
    (v : α) : imLookup (imInsert m k v) k = some v := by
  induction m with
  | nil => simp [imInsert, imLookup]
  | cons kv rest ih =>
    by_cases h : kv.1 = k
    · simp [imInsert, h, imLookup]
    · simp [imInsert, h, imLookup, ih]

lemma imOrInsert_of_lookup_some {α : Type} (m : List (String × α)) (k : String)
    (v v0 : α) (h : imLookup m k = some v0) : imOrInsert m k v = m := by
  induction m with
  | nil => simp [imLookup] at h
  | cons kv rest ih =>
    obtain ⟨k1, v1⟩ := kv
    by_cases hk : k1 = k
    · simp [imOrInsert, hk]
    · rw [imLookup] at h
      rw [if_neg hk] at h
      simp [imOrInsert, hk, ih h]

lemma imLookup_imOrInsert_of_none {α : Type} (m : List (String × α)) (k : String)
    (v : α) (h : imLookup m k = none) : imLookup (imOrInsert m k v) k = some v := by
  induction m with
  | nil => simp [imOrInsert, imLookup]
  | cons kv rest ih =>
    rw [imLookup] at h
    by_cases hk : kv.1 = k
    · rw [if_pos hk] at h
      simp at h
    · rw [if_neg hk] at h
      simp [imOrInsert, hk, imLookup, ih h]

lemma keys_trimmed_imInsert {α : Type} (m : List (String × α)) (k : String)
    (v : α) (hm : ∀ kv ∈ m, strTrim kv.1 = kv.1) (hk : strTrim k = k) :
    ∀ kv ∈ imInsert m k v, strTrim kv.1 = kv.1 := by
  induction m with
  | nil =>
    intro kv hkv
    rw [imInsert] at hkv
    rcases List.mem_singleton.mp hkv with rfl
    exact hk
  | cons kv0 rest ih =>
    obtain ⟨k0, v0⟩ := kv0
    intro kv hkv
    rw [imInsert] at hkv
    by_cases h0 : k0 = k
    · rw [if_pos h0] at hkv
      rcases List.mem_cons.mp hkv with rfl | hr
      · exact hk
      · exact hm kv (List.mem_cons_of_mem _ hr)
    · rw [if_neg h0] at hkv
      rcases List.mem_cons.mp hkv with rfl | hr
      · exact hm _ (List.mem_cons_self _ _)
      · exact ih (fun kv2 h2 => hm kv2 (List.mem_cons_of_mem _ h2)) kv hr

lemma keys_trimmed_imOrInsert {α : Type} (m : List (String × α)) (k : String)
    (v : α) (hm : ∀ kv ∈ m, strTrim kv.1 = kv.1) (hk : strTrim k = k) :
    ∀ kv ∈ imOrInsert m k v, strTrim kv.1 = kv.1 := by
  induction m with
  | nil =>
    intro kv hkv
    rw [imOrInsert] at hkv
    rcases List.mem_singleton.mp hkv with rfl
    exact hk
  | cons kv0 rest ih =>
    obtain ⟨k0, v0⟩ := kv0
    intro kv hkv
    rw [imOrInsert] at hkv
    by_cases h0 : k0 = k
    · rw [if_pos h0] at hkv
      exact hm kv hkv
    · rw [if_neg h0] at hkv
      rcases List.mem_cons.mp hkv with rfl | hr
      · exact hm _ (List.mem_cons_self _ _)
      · exact ih (fun kv2 h2 => hm kv2 (List.mem_cons_of_mem _ h2)) kv hr

lemma imLookup_none_of_untrimmed {α : Type} (m : List (String × α)) (id : String)
    (hm : ∀ kv ∈ m, strTrim kv.1 = kv.1) (hid : strTrim id ≠ id) :
    imLookup m id = none := by
  induction m with
  | nil => rfl
  | cons kv rest ih =>
    rw [imLookup]
    by_cases hk : kv.1 = id
    · exfalso
      apply hid
      rw [← hk]
      exact hm kv (List.mem_cons_self _ _)
    · rw [if_neg hk]
      exact ih (fun kv2 h2 => hm kv2 (List.mem_cons_of_mem _ h2))

/-! ## Lemmas about the status-aggregation scan -/

lemma check_requirements_nil (t : String)
    (m : List (String × (Bool × List String))) (allowed : List (String → Bool)) :
    check_requirements t m [] allowed = m := rfl

lemma check_requirements_cons (t : String)
    (m : List (String × (Bool × List String))) (id : String) (req : Requirement)
    (rest : List (String × Requirement)) (allowed : List (String → Bool)) :
    check_requirements t m ((id, req) :: rest) allowed
      = check_requirements t
          (if allowed.any (fun r => r id) then
            if strContains t (strTrim id ++ ": failed") then
              imInsert m (strTrim id) (false, failErrors t (strTrim id))
            else if strContains t (strTrim id ++ ": passed") then
              imOrInsert m (strTrim id) (true, [])
            else m
          else m)
          rest allowed := rfl

lemma keys_trimmed_check_requirements (t : String)
    (reqs : List (String × Requirement)) (allowed : List (String → Bool)) :
    ∀ m, (∀ kv ∈ m, strTrim kv.1 = kv.1) →
      ∀ kv ∈ check_requirements t m reqs allowed, strTrim kv.1 = kv.1 := by
  induction reqs with
  | nil =>
    intro m hm
    rw [check_requirements_nil]
    exact hm
  | cons idreq rest ih =>
    obtain ⟨id, req⟩ := idreq
    intro m hm
    rw [check_requirements_cons]
    apply ih
    split_ifs with h1 h2 h3
    · exact keys_trimmed_imInsert m _ _ hm (strTrim_idem id)
    · exact keys_trimmed_imOrInsert m _ _ hm (strTrim_idem id)
    · exact hm
    · exact hm

lemma keys_trimmed_read_statuses (read : String → Except String String)
    (paths : List String) (reqs : List (String × Requirement))
    (allowed : List (String → Bool)) :
    ∀ m st, read_statuses read paths m reqs allowed = .ok st →
      (∀ kv ∈ m, strTrim kv.1 = kv.1) → ∀ kv ∈ st, strTrim kv.1 = kv.1 := by
  induction paths with
  | nil =>
    intro m st h hm
    rw [read_statuses] at h
    exact (Except.ok.inj h) ▸ hm
  | cons p ps ih =>
    intro m st h hm
    rw [read_statuses] at h
    cases hr : read p with
    | error e => rw [hr] at h; simp at h
    | ok text =>
      rw [hr] at h
      apply ih _ _ h
      by_cases hre : reqs.isEmpty
      · simpa [hre] using hm
      · simp only [hre, if_false, Bool.false_eq_true]
        exact keys_trimmed_check_requirements text reqs allowed m hm

/-- Claim C1: in the status aggregation of `check`, scanning test-result
texts in order, a `failed` finding for an in-scope identifier
unconditionally overwrites any previously recorded status (including a
prior `passed` and previously collected error messages, which are
replaced, not merged), whereas a `passed` finding is recorded only when
no status is recorded yet; hence for two texts A (passed) and B (failed)
the final status is failed with B's error messages in either scan
order. -/
theorem failed_overwrites_passed
    (A B : String) (id : String) (req : Requirement)
    (allowed : List (String → Bool)) (m : List (String × (Bool × List String)))
    (hin : allowed.any (fun r => r id) = true)
    (hApass : strContains A (strTrim id ++ ": passed") = true)
    (hAnofail : strContains A (strTrim id ++ ": failed") = false)
    (hBfail : strContains B (strTrim id ++ ": failed") = true) :
    imLookup (check_requirements B m [(id, req)] allowed) (strTrim id)
      = some (false, failErrors B (strTrim id))
    ∧ (∀ v, imLookup m (strTrim id) = some v →
        check_requirements A m [(id, req)] allowed = m)
    ∧ imLookup (check_requirements A [] [(id, req)] allowed) (strTrim id)
      = some (true, [])
    ∧ imLookup (check_requirements B (check_requirements A [] [(id, req)] allowed)
          [(id, req)] allowed) (strTrim id)
      = some (false, failErrors B (strTrim id))
    ∧ imLookup (check_requirements A (check_requirements B [] [(id, req)] allowed)
          [(id, req)] allowed) (strTrim id)
      = some (false, failErrors B (strTrim id)) := by
  have hB : ∀ m0, check_requirements B m0 [(id, req)] allowed
      = imInsert m0 (strTrim id) (false, failErrors B (strTrim id)) := by
    intro m0
    rw [check_requirements_cons, if_pos hin, if_pos hBfail, check_requirements_nil]
  have hA : ∀ m0, check_requirements A m0 [(id, req)] allowed
      = imOrInsert m0 (strTrim id) (true, []) := by
    intro m0
    rw [check_requirements_cons, if_pos hin, if_neg (by simp [hAnofail]),
      if_pos hApass, check_requirements_nil]
  have hBlookup : imLookup (check_requirements B [] [(id, req)] allowed)
      (strTrim id) = some (false, failErrors B (strTrim id)) := by
    rw [hB]
    exact imLookup_imInsert_self [] _ _
  refine ⟨?_, ?_, ?_, ?_, ?_⟩
  · rw [hB m]
    exact imLookup_imInsert_self m _ _
  · intro v hv
    rw [hA m]
    exact imOrInsert_of_lookup_some m _ _ v hv
  · rw [hA []]
    exact imLookup_imOrInsert_of_none [] _ _ rfl
  · rw [hB _]
    exact imLookup_imInsert_self _ _ _
  · rw [hA _, imOrInsert_of_lookup_some _ _ _ _ hBlookup]
    exact hBlookup

/-- Witness for `failed_overwrites_passed`: with A marking REQ-1 passed
and B marking it failed, both scan orders yield the failed status with
B's error messages. -/
theorem failed_overwrites_passed_witness :
    imLookup (check_requirements "REQ-1: failed - x"
        (check_requirements "REQ-1: passed" [] [("REQ-1", ⟨"n", "d", []⟩)]
          [reqPattern])
        [("REQ-1", ⟨"n", "d", []⟩)] [reqPattern]) (strTrim "REQ-1")
      = some (false, failErrors "REQ-1: failed - x" (strTrim "REQ-1"))
    ∧ imLookup (check_requirements "REQ-1: passed"
        (check_requirements "REQ-1: failed - x" [] [("REQ-1", ⟨"n", "d", []⟩)]
          [reqPattern])
        [("REQ-1", ⟨"n", "d", []⟩)] [reqPattern]) (strTrim "REQ-1")
      = some (false, failErrors "REQ-1: failed - x" (strTrim "REQ-1")) :=
  ⟨(failed_overwrites_passed "REQ-1: passed" "REQ-1: failed - x" "REQ-1"
      ⟨"n", "d", []⟩ [reqPattern] [] (by decide) (by decide) (by decide)
      (by decide)).2.2.2.1,
   (failed_overwrites_passed "REQ-1: passed" "REQ-1: failed - x" "REQ-1"
      ⟨"n", "d", []⟩ [reqPattern] [] (by decide) (by decide) (by decide)
      (by decide)).2.2.2.2⟩

/-- Claim C9: an in-scope requirement whose identifier carries leading or
trailing whitespace is always rendered with the warning marker: the
status map only ever records trimmed identifiers, while the rendering
step looks the status up under the untrimmed identifier, so the lookup
always misses. -/
theorem untrimmed_id_renders_warning
    (read : String → Except String String) (paths : List String)
    (reqs : List (String × Requirement)) (allowed : List (String → Bool))
    (id : String) (req : Requirement)
    (st : List (String × (Bool × List String)))
    (hid : strTrim id ≠ id)
    (_hin : allowed.any (fun r => r id) = true)
    (hst : read_statuses read paths [] reqs allowed = .ok st) :
    imLookup st id = none
    ∧ render_requirements st [(id, req)]
        = ["- _" ++ strTrim id ++ "_ - " ++ req.name ++ ": " ++ ":warning:"] := by
  have hkeys := keys_trimmed_read_statuses read paths reqs allowed [] st hst
    (by intro kv h; simp at h)
  have hnone := imLookup_none_of_untrimmed st id hkeys hid
  refine ⟨hnone, ?_⟩
  rw [render_requirements, hnone]
  rfl

/-- Witness for `untrimmed_id_renders_warning`: the identifier
`" REQ-1"` is marked passed (under its trimmed form) by the only text,
yet renders with the warning marker. -/
theorem untrimmed_id_renders_warning_witness :
    imLookup [("REQ-1", ((true : Bool), ([] : List String)))] " REQ-1" = none
    ∧ render_requirements [("REQ-1", ((true : Bool), ([] : List String)))]
        [(" REQ-1", ⟨"n", "d", []⟩)]
      = ["- _" ++ strTrim " REQ-1" ++ "_ - " ++ "n" ++ ": " ++ ":warning:"] :=
  untrimmed_id_renders_warning (fun _ => .ok "REQ-1: passed") ["t"]
    [(" REQ-1", ⟨"n", "d", []⟩)] [reqPattern] " REQ-1" ⟨"n", "d", []⟩
    [("REQ-1", (true, []))] (by decide) (by decide) (by rfl)

lemma failErrors_eq_nil (text tid : String)
    (h : ∀ l ∈ rustLines text, listPrefixOf (tid ++ ": failed").data l.data = false) :
    failErrors text tid = [] := by
  rw [failErrors]
  refine List.filterMap_eq_nil_iff.mpr (fun l hl => ?_)
  rw [h l hl]
  simp

/-- Claim C10, counterexample: the claim promises the failed marker on
the rendered bullet whenever the text contains `<trimmed-id>: failed`
with no line starting with that marker; for the identifier `" REQ-1"`
(which carries leading whitespace) and the text `x REQ-1: failed - e`
the premises hold and the failed status `(false, [])` is recorded, yet
the bullet is rendered with the warning marker, not the failed one. -/
theorem failed_marker_not_always_rendered :
    strContains "x REQ-1: failed - e" (strTrim " REQ-1" ++ ": failed") = true
    ∧ (rustLines "x REQ-1: failed - e").all
        (fun l => !listPrefixOf (strTrim " REQ-1" ++ ": failed").data l.data) = true
    ∧ imLookup (check_requirements "x REQ-1: failed - e" []
          [(" REQ-1", ⟨"n", "d", []⟩)] [reqPattern]) (strTrim " REQ-1")
        = some (false, [])
    ∧ render_requirements (check_requirements "x REQ-1: failed - e" []
          [(" REQ-1", ⟨"n", "d", []⟩)] [reqPattern]) [(" REQ-1", ⟨"n", "d", []⟩)]
        ≠ ["- _" ++ strTrim " REQ-1" ++ "_ - " ++ "n" ++ ": " ++ ":x:"]
    ∧ render_requirements (check_requirements "x REQ-1: failed - e" []
          [(" REQ-1", ⟨"n", "d", []⟩)] [reqPattern]) [(" REQ-1", ⟨"n", "d", []⟩)]
        = ["- _" ++ strTrim " REQ-1" ++ "_ - " ++ "n" ++ ": " ++ ":warning:"] := by
  refine ⟨by decide, by decide, by decide, by decide, by decide⟩

/-- Claim C10 (amended): if a text contains `<trimmed-id>: failed` for an
in-scope requirement but no line of the text begins with that marker,
the scan records status failed with an EMPTY error list under the
trimmed identifier — so a failed status does not imply an error
message — and, provided the identifier carries no surrounding
whitespace, the bullet is rendered with the failed marker and zero
indented error lines. -/
theorem failed_without_matching_line
    (text : String) (m : List (String × (Bool × List String)))
    (id : String) (req : Requirement) (allowed : List (String → Bool))
    (hin : allowed.any (fun r => r id) = true)
    (htrim : strTrim id = id)
    (hfail : strContains text (id ++ ": failed") = true)
    (hline : ∀ l ∈ rustLines text,
      listPrefixOf (id ++ ": failed").data l.data = false) :
    imLookup (check_requirements text m [(id, req)] allowed) id
      = some (false, [])
    ∧ render_requirements (check_requirements text m [(id, req)] allowed)
        [(id, req)]
      = ["- _" ++ strTrim id ++ "_ - " ++ req.name ++ ": " ++ ":x:"] := by
  have herr : failErrors text id = [] := failErrors_eq_nil text id hline
  have hstep : check_requirements text m [(id, req)] allowed
      = imInsert m id (false, []) := by
    rw [check_requirements_cons, htrim, if_pos hin, if_pos hfail, herr,
      check_requirements_nil]
  have hlook : imLookup (imInsert m id (false, [])) id = some (false, []) :=
    imLookup_imInsert_self m id _
  refine ⟨by rw [hstep]; exact hlook, ?_⟩
  rw [hstep, render_requirements, hlook]
  rfl

/-- Witness for `failed_without_matching_line`: the text mentions
`REQ-1: failed` mid-line only, so REQ-1 is recorded failed with no error
messages and rendered as a failed bullet with no error lines. -/
theorem failed_without_matching_line_witness :
    imLookup (check_requirements "saw REQ-1: failed today" []
        [("REQ-1", ⟨"n", "d", []⟩)] [reqPattern]) "REQ-1"
      = some (false, [])
    ∧ render_requirements (check_requirements "saw REQ-1: failed today" []
        [("REQ-1", ⟨"n", "d", []⟩)] [reqPattern]) [("REQ-1", ⟨"n", "d", []⟩)]
      = ["- _" ++ strTrim "REQ-1" ++ "_ - " ++ "n" ++ ": " ++ ":x:"] :=
  failed_without_matching_line "saw REQ-1: failed today" [] "REQ-1"
    ⟨"n", "d", []⟩ [reqPattern] (by decide) (by decide) (by decide) (by decide)

/-- Claim C7: for a project with topic `T1` containing requirement
`REQ-1`, pattern `REQ-.*`, and the single test-result text
`REQ-1: failed - timeout waiting for response`, `check` emits exactly
one heading, one failed bullet for REQ-1, and exactly one indented error
line `timeout waiting for response` (the trimmed substring after the
first `-` following the first `:` of the matching line), then the blank
separator. -/
theorem single_failed_requirement_report :
    check_topics (fun _ => .ok "REQ-1: failed - timeout waiting for response")
      ["t"] [("T1", Topic.mk "Topic One" [("REQ-1", ⟨"Req name", "d", []⟩)] [])]
      [reqPattern] 2
    = .ok ["## _T1_ - Topic One", "- _REQ-1_ - Req name: :x:",
           "  - timeout waiting for response", ""] := by
  simp +decide [check_topics, check_topics_go, has_valid_topics, topicValid,
    Topic.subtopics, Topic.requirements, Topic.name, read_statuses, nl]

lemma parseU64_digits_isSome (l : List Char) :
    (parseU64_digits l).isSome = versionShapeDigits l := by
  rw [parseU64_digits, versionShapeDigits]
  by_cases h1 : l ≠ [] ∧ l.all Char.isDigit = true
  · rw [if_pos h1]
    by_cases h2 : l.foldl (fun acc c => acc * 10 + (c.toNat - 48)) 0
        < 18446744073709551616
    · rw [if_pos h2]
      simp [h1.1, h1.2, h2]
    · rw [if_neg h2]
      simp [h2]
  · rw [if_neg h1]
    rcases not_and_or.mp h1 with h | h
    · simp [h]
    · simp [h]

lemma parseU64_isSome (t : String) : (parseU64 t).isSome = versionShapeComp t := by
  rw [parseU64, versionShapeComp]
  exact parseU64_digits_isSome _

/-- Claim C8, counterexample: acceptance is NOT exactly "three
dot-separated unsigned-integer literals".  A component of textual
unsigned-integer form whose value needs more than 64 bits is rejected,
while a component with a leading `+` (not a plain digit string) is
accepted. -/
theorem version_shape_mismatch :
    deserialize_version "18446744073709551616.0.0" = none
    ∧ deserialize_version "+1.2.3" = some ⟨1, 2, 3⟩ := by
  constructor
  · decide
  · decide

/-- Claim C8 (amended): version parsing accepts exactly the strings of
the form `a.b.c` where each of the three `.`-separated components is an
optional `+` followed by decimal digits whose value fits in 64 bits
(`str::parse::<u64>`); `1.2.3` parses to (1,2,3) and renders back as
`1.2.3`, while `1.2` and `a.b.c` fail to parse. -/
theorem version_exact_form :
    (∀ s : String, (deserialize_version s).isSome = versionShape s)
    ∧ deserialize_version "1.2.3" = some ⟨1, 2, 3⟩
    ∧ Version.fmt ⟨1, 2, 3⟩ = "1.2.3"
    ∧ deserialize_version "1.2" = none
    ∧ deserialize_version "a.b.c" = none := by
  refine ⟨?_, by decide, by decide, by decide, by decide⟩
  intro s
  rw [deserialize_version, versionShape]
  cases hsplit : (splitOnChar '.' s.data).map String.mk with
  | nil => rfl
  | cons p0 rest0 =>
    cases rest0 with
    | nil => rfl
    | cons p1 rest1 =>
      cases rest1 with
      | nil => rfl
      | cons p2 rest2 =>
        cases rest2 with
        | cons p3 rest3 => rfl
        | nil =>
          show (match parseU64 p0, parseU64 p1, parseU64 p2 with
              | some major, some minor, some patch =>
                some (Version.mk major minor patch)
              | _, _, _ => none).isSome
            = (versionShapeComp p0 && versionShapeComp p1 && versionShapeComp p2)
          rw [← parseU64_isSome p0, ← parseU64_isSome p1, ← parseU64_isSome p2]
          cases parseU64 p0 <;> cases parseU64 p1 <;> cases parseU64 p2 <;> simp

/-! ## Lemmas about read-failure propagation and pruning -/

lemma read_statuses_error (read : String → Except String String)
    (paths : List String) (reqs : List (String × Requirement))
    (allowed : List (String → Bool)) (p : String) (e : String)
    (hp : p ∈ paths) (hr : read p = .error e) :
    ∀ m, ∃ e2, read_statuses read paths m reqs allowed = .error e2 := by
  induction paths with
  | nil => simp at hp
  | cons q ps ih =>
    intro m
    rw [read_statuses]
    cases hq : read q with
    | error e2 => exact ⟨e2, rfl⟩
    | ok text =>
      rcases List.mem_cons.mp hp with rfl | hp2
      · rw [hq] at hr
        simp at hr
      · exact ih hp2 _

lemma check_topics_go_error (read : String → Except String String)
    (paths : List String) (allowed : List (String → Bool)) (level : Nat)
    (p : String) (e : String) (hp : p ∈ paths) (hr : read p = .error e) :
    ∀ topics, has_valid_topics topics allowed = true →
      ∃ e2, check_topics_go read paths topics allowed level = .error e2 := by
  intro topics
  induction topics with
  | nil => intro hv; simp [has_valid_topics] at hv
  | cons idt rest ih =>
    obtain ⟨id, t⟩ := idt
    cases t with
    | mk nm reqs subs =>
      intro hv
      rw [check_topics_go]
      by_cases hval : topicValid (Topic.mk nm reqs subs) allowed = true
      · rw [if_pos hval]
        obtain ⟨e2, hre⟩ :=
          read_statuses_error read paths reqs allowed p e hp hr []
        refine ⟨e2, ?_⟩
        rw [show Topic.requirements (Topic.mk nm reqs subs) = reqs from rfl, hre]
      · rw [if_neg hval]
        apply ih
        simp only [topicValid, Topic.subtopics, Topic.requirements,
          Bool.or_eq_true, not_or] at hval
        push_neg at hval
        rw [has_valid_topics] at hv
        simp only [Bool.or_eq_true] at hv
        rcases hv with (h | h) | h
        · exact absurd h (by simpa using hval.2)
        · exact absurd h (by simpa using hval.1)
        · exact h

/-- Claim C6: if reading any test-result text fails while the checker is
not fully pruned (so the read loop is reached), the whole check
operation fails: `check_command` returns the propagated error and
produces no report string, not even a partial one. -/
theorem read_failure_aborts_check (read : String → Except String String)
    (name : String) (topics : List (String × Topic))
    (allowed : List (String → Bool)) (paths : List String) (p : String)
    (e : String)
    (hv : has_valid_topics topics allowed = true)
    (hp : p ∈ paths) (hr : read p = .error e) :
    ∃ e2, check_command read name topics allowed paths = .error e2 := by
  obtain ⟨e2, hgo⟩ := check_topics_go_error read paths allowed 2 p e hp hr topics hv
  refine ⟨e2, ?_⟩
  rw [check_command, check_topics, if_pos hv, hgo]

/-- Witness for `read_failure_aborts_check`: a single failing read on a
project with one in-scope requirement aborts the whole check. -/
theorem read_failure_aborts_check_witness :
    ∃ e2, check_command (fun _ => .error "io") "P"
      [("T1", Topic.mk "N" [("REQ-1", ⟨"r", "d", []⟩)] [])] [reqPattern]
      ["a"] = .error e2 :=
  read_failure_aborts_check (fun _ => .error "io") "P"
    [("T1", Topic.mk "N" [("REQ-1", ⟨"r", "d", []⟩)] [])] [reqPattern]
    ["a"] "a" "io"
    (by simp +decide [has_valid_topics, has_valid_requirements])
    (by simp) rfl

lemma has_valid_topics_filter (allowed : List (String → Bool)) :
    ∀ topics : List (String × Topic),
      has_valid_topics (topics.filter (fun kv => topicValid kv.2 allowed)) allowed
        = has_valid_topics topics allowed := by
  intro topics
  induction topics with
  | nil => rfl
  | cons idt rest ih =>
    obtain ⟨id, t⟩ := idt
    cases t with
    | mk nm reqs subs =>
      rw [List.filter_cons]
      by_cases hval : topicValid (Topic.mk nm reqs subs) allowed = true
      · rw [if_pos (by simpa using hval)]
        conv_lhs => rw [has_valid_topics]
        conv_rhs => rw [has_valid_topics]
        rw [ih]
      · rw [if_neg (by simpa using hval)]
        have hcomp : has_valid_topics subs allowed = false
            ∧ has_valid_requirements reqs allowed = false := by
          have := Bool.or_eq_false_iff.mp (Bool.eq_false_iff.mpr hval ▸ rfl :
            topicValid (Topic.mk nm reqs subs) allowed = false)
          simpa [topicValid, Topic.subtopics, Topic.requirements] using this
        conv_rhs => rw [has_valid_topics]
        rw [ih, hcomp.1, hcomp.2]
        simp

lemma check_topics_go_filter (read : String → Except String String)
    (paths : List String) (allowed : List (String → Bool)) (level : Nat) :
    ∀ topics : List (String × Topic),
      check_topics_go read paths
          (topics.filter (fun kv => topicValid kv.2 allowed)) allowed level
        = check_topics_go read paths topics allowed level := by
  intro topics
  induction topics with
  | nil => rfl
  | cons idt rest ih =>
    obtain ⟨id, t⟩ := idt
    rw [List.filter_cons]
    by_cases hval : topicValid t allowed = true
    · rw [if_pos (by simpa using hval)]
      conv_lhs => rw [check_topics_go]
      conv_rhs => rw [check_topics_go]
      rw [if_pos hval, if_pos hval, ih]
    · rw [if_neg (by simpa using hval)]
      conv_rhs => rw [check_topics_go]
      rw [if_neg hval]
      exact ih

/-- Claim C2: a topic under which no requirement identifier (neither
among its direct requirements nor anywhere in its subtopic subtree)
matches any allowed pattern produces zero output lines from `check`; and
the whole check output is unchanged when all such topics are removed.
Both facts hold for every `read` function and every test-result list:
the pruning decision never consults the test-result texts. -/
theorem pruned_topic_emits_nothing
    (read : String → Except String String) (paths : List String)
    (topics : List (String × Topic)) (allowed : List (String → Bool))
    (level : Nat) (id : String) (t : Topic) :
    (topicValid t allowed = false →
      check_topics read paths [(id, t)] allowed level = .ok [])
    ∧ check_topics read paths topics allowed level
      = check_topics read paths
          (topics.filter (fun kv => topicValid kv.2 allowed)) allowed level := by
  constructor
  · intro hval
    cases t with
    | mk nm reqs subs =>
      have hcomp : has_valid_topics subs allowed = false
          ∧ has_valid_requirements reqs allowed = false := by
        simpa [topicValid, Topic.subtopics, Topic.requirements] using
          Bool.or_eq_false_iff.mp hval
      rw [check_topics, if_neg]
      rw [has_valid_topics]
      simp [hcomp.1, hcomp.2, has_valid_topics]
  · rw [check_topics, check_topics, has_valid_topics_filter]
    by_cases hv : has_valid_topics topics allowed = true
    · rw [if_pos hv, if_pos hv, check_topics_go_filter]
    · rw [if_neg hv, if_neg hv]

/-- Witness for `pruned_topic_emits_nothing`: a topic whose only
requirement identifier `X-1` matches no allowed pattern emits no lines,
and filtering it away leaves the check output unchanged. -/
theorem pruned_topic_emits_nothing_witness :
    check_topics (fun _ => .ok "X-1: passed") ["t"]
      [("T1", Topic.mk "N" [("X-1", ⟨"r", "d", []⟩)] [])] [reqPattern] 2
      = .ok []
    ∧ check_topics (fun _ => .ok "X-1: passed") ["t"]
        [("T1", Topic.mk "N" [("X-1", ⟨"r", "d", []⟩)] [])] [reqPattern] 2
      = check_topics (fun _ => .ok "X-1: passed") ["t"]
          ([("T1", Topic.mk "N" [("X-1", ⟨"r", "d", []⟩)] [])].filter
            (fun kv => topicValid kv.2 [reqPattern])) [reqPattern] 2 :=
  ⟨(pruned_topic_emits_nothing (fun _ => .ok "X-1: passed") ["t"]
      [("T1", Topic.mk "N" [("X-1", ⟨"r", "d", []⟩)] [])] [reqPattern] 2
      "T1" (Topic.mk "N" [("X-1", ⟨"r", "d", []⟩)] [])).1
    (by simp +decide [topicValid, Topic.subtopics, Topic.requirements,
      has_valid_topics, has_valid_requirements]),
   (pruned_topic_emits_nothing (fun _ => .ok "X-1: passed") ["t"]
      [("T1", Topic.mk "N" [("X-1", ⟨"r", "d", []⟩)] [])] [reqPattern] 2
      "T1" (Topic.mk "N" [("X-1", ⟨"r", "d", []⟩)] [])).2⟩

lemma check_topics_go_nil (read : String → Except String String)
    (paths : List String) (allowed : List (String → Bool)) (level : Nat) :
    check_topics_go read paths [] allowed level = .ok [] := by
  simp [check_topics_go]

/-- Claim C5, counterexample: the heading line emitted by `check` is NOT
always the heading line emitted by `render`: `check` uses the topic name
untrimmed while `render` trims it, so for the topic name `" N "` the two
headings differ (beyond the starting level, which is 2 in both calls
here). -/
theorem check_render_heading_differ :
    check_topics (fun _ => .ok "") []
      [("T1", Topic.mk " N " [("REQ-1", ⟨"r", "d", []⟩)] [])] [reqPattern] 2
      = .ok ["## _T1_ -  N ", "- _REQ-1_ - r: :warning:", ""]
    ∧ add_topics [("T1", Topic.mk " N " [("REQ-1", ⟨"r", "d", []⟩)] [])] 2
      = ["## _T1_ - N", "- **_REQ-1_ - r:** d", ""]
    ∧ ("## _T1_ -  N " : String) ≠ "## _T1_ - N" := by
  refine ⟨?_, ?_, by decide⟩
  · simp +decide [check_topics, check_topics_go, has_valid_topics, topicValid,
      Topic.subtopics, Topic.requirements, Topic.name, read_statuses, nl]
  · simp +decide [add_topics, add_requirements, nl]

/-- Claim C5 (amended): for every topic that survives pruning and whose
name carries no leading or trailing whitespace, the heading line emitted
by `check` equals the heading line emitted by `render` at the same
`level` (the two public entry points only differ in the starting level:
2 for check's root call, 3 for render's).  In general `check` emits the
topic name untrimmed while `render` trims it. -/
theorem check_heading_matches_render
    (read : String → Except String String) (paths : List String)
    (id : String) (t : Topic) (allowed : List (String → Bool)) (level : Nat)
    (out : List String)
    (hname : strTrim t.name = t.name)
    (hval : topicValid t allowed = true)
    (hok : check_topics read paths [(id, t)] allowed level = .ok out) :
    out.head? = (add_topics [(id, t)] level).head? := by
  cases t with
  | mk nm reqs subs =>
    have hcomp : has_valid_topics subs allowed = true
        ∨ has_valid_requirements reqs allowed = true := by
      simpa [topicValid, Topic.subtopics, Topic.requirements] using hval
    have hv1 : has_valid_topics [(id, Topic.mk nm reqs subs)] allowed = true := by
      rw [has_valid_topics]
      rcases hcomp with h | h <;> simp [h]
    rw [check_topics, if_pos hv1, check_topics_go, if_pos hval] at hok
    split at hok
    · simp at hok
    · split at hok
      · simp at hok
      · rw [check_topics_go_nil read paths allowed level] at hok
        have hout := Except.ok.inj hok
        rw [← hout, add_topics]
        simp only [List.head?_cons, topic_heading, Topic.name]
        simp only [Topic.name] at hname
        rw [hname]

/-- Witness for `check_heading_matches_render`: a surviving topic with
the already-trimmed name `N` gets the same heading from check (level 2)
as from render at level 2. -/
theorem check_heading_matches_render_witness :
    (["## _T1_ - N", "- _REQ-1_ - r: :warning:", ""] : List String).head?
      = (add_topics [("T1", Topic.mk "N" [("REQ-1", ⟨"r", "d", []⟩)] [])] 2).head? :=
  check_heading_matches_render (fun _ => .ok "") [] "T1"
    (Topic.mk "N" [("REQ-1", ⟨"r", "d", []⟩)] []) [reqPattern] 2
    ["## _T1_ - N", "- _REQ-1_ - r: :warning:", ""]
    (by decide)
    (by simp +decide [topicValid, Topic.subtopics, Topic.requirements,
      has_valid_topics, has_valid_requirements])
    (by simp +decide [check_topics, check_topics_go, has_valid_topics,
      topicValid, Topic.subtopics, Topic.requirements, Topic.name,
      read_statuses, nl])
